import Mathlib

/-!
Shallow embedding of the transcription-session core of the
`whisper-subtitle-iina` plugin (source files `src/src/transcribe.js` and
`src/unnamed/part_000` … `part_003`), together with proofs settling the
frozen claims about it.

Conventions of the embedding:
* JavaScript strings are Lean `String`s; all character-level processing is
  done on `String.data` (`List Char`) so that every definition evaluates
  inside the kernel.
* JavaScript numbers that are always integral in the program (millisecond
  counts, indices, lengths) are `Nat`/`Int`; the few places where a backend
  may deliver fractional seconds use `ℚ` with explicit floor/rounding.
* `undefined`/`null`/absent JSON fields are `Option`.
* `Array.prototype.sort` (a stable sort per ES2019) with comparator
  `(a, b) => a.startMs - b.startMs` is modelled by `List.insertionSort`
  with the relation `a.startMs ≤ b.startMs`, which computes exactly the
  unique stable ascending reordering.
* I/O effects (file writes, subtitle reloads, logging) are outside the
  embedding; state-changing operations are modelled as explicit
  state-passing functions.
-/

namespace Whisperina

/-! ## JavaScript string primitives -/

/-- Character class of JavaScript's `\s` (and of `String.prototype.trim`),
restricted to the code points that can occur in this program's data:
ASCII whitespace plus NBSP. -/
def isJsSpace (c : Char) : Bool :=
  c = ' ' || c = '\t' || c = '\n' || c = '\r' || c = '\x0b' || c = '\x0c' || c = ' '

/-- Trim on character lists: drop leading and trailing JS whitespace. -/
def trimChars (l : List Char) : List Char :=
  ((l.dropWhile isJsSpace).reverse.dropWhile isJsSpace).reverse

/-- JavaScript `String.prototype.trim`. -/
def jsTrim (s : String) : String :=
  String.mk (trimChars s.data)

/-- Split a character list at every occurrence of the separator character
(the pieces do not contain the separator). -/
def splitChar (sep : Char) : List Char → List Char → List (List Char)
  | [], acc => [acc.reverse]
  | c :: rest, acc =>
    if c = sep then acc.reverse :: splitChar sep rest []
    else splitChar sep rest (c :: acc)

/-- Drop a single trailing carriage return, as the regex `\r?\n` consumes
the `\r` that precedes a `\n`. -/
def dropTrailingCR (l : List Char) : List Char :=
  match l.reverse with
  | '\r' :: rest => rest.reverse
  | _ => l

/-- Apply `f` to every element except the last one. -/
def mapExceptLast (f : α → α) : List α → List α
  | [] => []
  | [x] => [x]
  | x :: y :: rest => f x :: mapExceptLast f (y :: rest)

/-- JavaScript `content.split(/\r?\n/)`. -/
def splitLinesJs (s : String) : List String :=
  (mapExceptLast dropTrailingCR (splitChar '\n' s.data [])).map String.mk

/-- JavaScript `String(value).padStart(len, c)`. -/
def padStart (s : String) (len : Nat) (c : Char) : String :=
  String.mk (List.replicate (len - s.data.length) c ++ s.data)

/-- Join a list of strings with a separator: `array.join(sep)`. -/
def joinSep (sep : String) : List String → String
  | [] => ""
  | [x] => x
  | x :: y :: rest => x ++ sep ++ joinSep sep (y :: rest)

/-- Maximal runs of non-whitespace characters: the nonempty pieces of
`text.split(/\s+/).filter(Boolean)`. -/
def jsWordsGo : List Char → List Char → List (List Char)
  | [], acc => if acc.isEmpty then [] else [acc.reverse]
  | c :: rest, acc =>
    if isJsSpace c then
      if acc.isEmpty then jsWordsGo rest [] else acc.reverse :: jsWordsGo rest []
    else jsWordsGo rest (c :: acc)

/-- Nonempty whitespace-separated words of a string. -/
def jsWords (s : String) : List (List Char) :=
  jsWordsGo s.data []

/-! ## Timestamp codec (`transcribe.js` lines 675–692) -/

/-- Numeric value of a decimal digit character. -/
def digitVal (c : Char) : Nat := c.toNat - 48

/-- Matcher for the anchored regex `^(\d{2}):(\d{2}):(\d{2}),(\d{3})$` of
`parseTimestampMs`, returning the four captured fields as numbers
(`parseInt` of two- resp. three-digit captures). -/
def matchSrtTimestamp : List Char → Option (Nat × Nat × Nat × Nat)
  | [h1, h2, ca, m1, m2, cb, s1, s2, cc, x1, x2, x3] =>
    if h1.isDigit && h2.isDigit && ca = ':' && m1.isDigit && m2.isDigit && cb = ':' &&
        s1.isDigit && s2.isDigit && cc = ',' && x1.isDigit && x2.isDigit && x3.isDigit then
      some (digitVal h1 * 10 + digitVal h2, digitVal m1 * 10 + digitVal m2,
            digitVal s1 * 10 + digitVal s2,
            digitVal x1 * 100 + digitVal x2 * 10 + digitVal x3)
    else none
  | _ => none

/-- `parseTimestampMs(value)`: parse `HH:MM:SS,mmm`, returning `0` on any
non-match (lenient policy). -/
def parseTimestampMs (value : String) : Nat :=
  match matchSrtTimestamp value.data with
  | some (hh, mm, ss, ms) => ((hh * 60 + mm) * 60 + ss) * 1000 + ms
  | none => 0

/-- `formatTimestamp(ms)`: clamp to `0`, decompose into
hours/minutes/seconds/millis, zero-pad (`HH:MM:SS,mmm`; hours not wrapped).
The input is an integer here, so JavaScript's `Math.floor` is the
identity on it. -/
def formatTimestamp (ms : Int) : String :=
  let clamped := (max 0 ms).toNat
  let hours := clamped / 3600000
  let minutes := (clamped % 3600000) / 60000
  let seconds := (clamped % 60000) / 1000
  let millis := clamped % 1000
  padStart (Nat.repr hours) 2 '0' ++ ":" ++ padStart (Nat.repr minutes) 2 '0' ++ ":" ++
    padStart (Nat.repr seconds) 2 '0' ++ "," ++ padStart (Nat.repr millis) 3 '0'

/-! ### Digit-padding facts used for the round-trip claims -/

/-- Boolean check that `padStart (Nat.repr n) 2 '0'` is two digit characters
recovering `n`. -/
def twoDigitOk (n : Nat) : Bool :=
  match (padStart (Nat.repr n) 2 '0').data with
  | [a, b] => a.isDigit && b.isDigit && digitVal a * 10 + digitVal b = n
  | _ => false

/-- Boolean check that `padStart (Nat.repr n) 3 '0'` is three digit
characters recovering `n`. -/
def threeDigitOk (n : Nat) : Bool :=
  match (padStart (Nat.repr n) 3 '0').data with
  | [a, b, c] => a.isDigit && b.isDigit && c.isDigit &&
      digitVal a * 100 + digitVal b * 10 + digitVal c = n
  | _ => false

/-! ## Log-segment collection (`collectNewSegments`, lines 295–342 of
`transcribe.js` / 457–504 of `part_000`) -/

/-- Matcher for the 12-character log timestamp `\d{2}:\d{2}:\d{2}\.\d{3}`:
returns the matched characters and the remaining input. -/
def takeLogTs : List Char → Option (List Char × List Char)
  | h1 :: h2 :: c1 :: m1 :: m2 :: c2 :: s1 :: s2 :: d :: x1 :: x2 :: x3 :: rest =>
    if h1.isDigit && h2.isDigit && c1 = ':' && m1.isDigit && m2.isDigit && c2 = ':' &&
        s1.isDigit && s2.isDigit && d = '.' && x1.isDigit && x2.isDigit && x3.isDigit then
      some ([h1, h2, c1, m1, m2, c2, s1, s2, d, x1, x2, x3], rest)
    else none
  | _ => none

/-- Expect a literal character sequence as a prefix, returning the rest. -/
def dropLiteral : List Char → List Char → Option (List Char)
  | [], rest => some rest
  | c :: cs, d :: rest => if c = d then dropLiteral cs rest else none
  | _ :: _, [] => none

/-- Matcher for `LOG_SEGMENT_REGEX`
`^\[(\d{2}:\d{2}:\d{2}\.\d{3}) --> (\d{2}:\d{2}:\d{2}\.\d{3})]\s+(.*)$`,
returning the three captures. The final `\s+` consumes the maximal
whitespace run (backtracking cannot help since `(.*)$` always matches). -/
def matchLogSegment (line : List Char) : Option (String × String × String) :=
  match line with
  | '[' :: r0 =>
    match takeLogTs r0 with
    | none => none
    | some (ts1, r1) =>
      match dropLiteral (" --> ".data) r1 with
      | none => none
      | some r2 =>
        match takeLogTs r2 with
        | none => none
        | some (ts2, r3) =>
          match r3 with
          | ']' :: r4 =>
            match r4 with
            | c :: _ =>
              if isJsSpace c then
                some (String.mk ts1, String.mk ts2, String.mk (r4.dropWhile isJsSpace))
              else none
            | [] => none
          | _ => none
  | _ => none

/-- `convertLogTimestamp(value)`: turn `HH:MM:SS.mmm` into `HH:MM:SS,mmm`
(split on `.`, re-pad the fractional part to three characters). -/
def convertLogTimestamp (value : String) : String :=
  if value = "" then "00:00:00,000"
  else
    let parts := splitChar '.' value.data []
    let whole := parts.getD 0 []
    let fractional := parts.getD 1 ("000".data)
    String.mk whole ++ "," ++ String.mk ((fractional ++ "000".data).take 3)

/-- A segment collected from the whisper-server log: a rendered timing line
plus its text lines. -/
structure LogSeg where
  timing : String
  text : List String
deriving DecidableEq

/-- The log monitor's accumulated state: the dedup key set `seen` (a JS
`Set`, insertion-ordered) and the collected `segments`. -/
structure LogState where
  seen : List String
  segments : List LogSeg
deriving DecidableEq

/-- The dedup key `start|end|text` that a single (already trimmed,
matched) log line contributes, if any. -/
def lineKey (rawLine : String) : Option String :=
  let line := jsTrim rawLine
  if line = "" then none
  else
    match matchLogSegment line.data with
    | none => none
    | some (startTs, endTs, textRaw) =>
      some (startTs ++ "|" ++ endTs ++ "|" ++ jsTrim textRaw)

/-- Body of the `for (const rawLine of lines)` loop of
`collectNewSegments`: trim, match, dedup by key, append. -/
def collectLine (st : Bool × LogState) (rawLine : String) : Bool × LogState :=
  let line := jsTrim rawLine
  if line = "" then st
  else
    match matchLogSegment line.data with
    | none => st
    | some (startTs, endTs, textRaw) =>
      let text := jsTrim textRaw
      let key := startTs ++ "|" ++ endTs ++ "|" ++ text
      if st.2.seen.contains key then st
      else
        (true,
          { seen := st.2.seen ++ [key],
            segments := st.2.segments ++
              [{ timing := convertLogTimestamp startTs ++ " --> " ++ convertLogTimestamp endTs,
                 text := [text] }] })

/-- `collectNewSegments(logPath, seen, segments)`: reread the whole log
content and append every segment line whose dedup key is unseen; returns
whether anything was added. The file-system access is abstracted into
`logExists` (false when `logPath` is falsy or the file is absent) and
`content` (the current full text of the log, `file.read(logPath) || ""`). -/
def collectNewSegments (logExists : Bool) (content : String) (st : LogState) :
    Bool × LogState :=
  if !logExists then (false, st)
  else if content = "" then (false, st)
  else (splitLinesJs content).foldl collectLine (false, st)

/-! ## Segment model and merger (`part_000` lines 184–390) -/

/-- A normalized transcript segment (the Segment data model). -/
structure Segment where
  id : String
  startMs : Nat
  endMs : Nat
  textLines : List String
deriving DecidableEq

/-- The comparator `(a, b) => a.startMs - b.startMs` as an ordering
relation; JS `Array.prototype.sort` with this comparator is a stable
ascending sort by `startMs`. -/
def segLE (a b : Segment) : Prop := a.startMs ≤ b.startMs

instance : DecidableRel segLE := fun a b => Nat.decLe a.startMs b.startMs

instance : IsTotal Segment segLE := ⟨fun a b => Nat.le_total a.startMs b.startMs⟩

instance : IsTrans Segment segLE := ⟨fun _ _ _ h1 h2 => Nat.le_trans h1 h2⟩

/-- The sequence is sorted ascending by `startMs`. -/
def SortedByStart (l : List Segment) : Prop := l.Pairwise segLE

instance (l : List Segment) : Decidable (SortedByStart l) :=
  inferInstanceAs (Decidable (l.Pairwise segLE))

/-- A JS `Map` from segment id to position, as an insertion-ordered
association list with unique keys (`set` overwrites in place). -/
abbrev SegmentMap := List (String × Nat)

/-- JS `Map.prototype.get` (with `has` folded in: `none` = absent). -/
def mapGet : SegmentMap → String → Option Nat
  | [], _ => none
  | (k', v) :: rest, k => if k' = k then some v else mapGet rest k

/-- JS `Map.prototype.set`: overwrite in place, else append. -/
def mapSet : SegmentMap → String → Nat → SegmentMap
  | [], k, v => [(k, v)]
  | (k', v') :: rest, k, v =>
    if k' = k then (k', v) :: rest else (k', v') :: mapSet rest k v

/-- `segments.forEach((segment, index) => segmentMap.set(segment.id, index))`,
starting at index `i`. -/
def rebuildMap : SegmentMap → List Segment → Nat → SegmentMap
  | m, [], _ => m
  | m, s :: rest, i => rebuildMap (mapSet m s.id i) rest (i + 1)

/-- The stream handler's transcript state: the ordered segment array and
the id → position map. -/
structure StreamState where
  segments : List Segment
  segmentMap : SegmentMap
deriving DecidableEq

/-- The association list has no repeated keys (a JS `Map` holds each key
once). -/
def NodupKeys (m : SegmentMap) : Prop := (m.map Prod.fst).Nodup

/-- Invariant: the map holds each id once, every map entry points at a
valid position holding a segment with that id, and every segment's id is
mapped to its own position (so each id has exactly one valid position). -/
def MapWF (st : StreamState) : Prop :=
  (∀ p ∈ st.segmentMap, (st.segments.get? p.2).map Segment.id = some p.1) ∧
  (∀ i : Fin st.segments.length, mapGet st.segmentMap (st.segments.get i).id = some i.val) ∧
  NodupKeys st.segmentMap

instance (m : SegmentMap) : Decidable (NodupKeys m) :=
  inferInstanceAs (Decidable (List.Nodup _))

instance (st : StreamState) : Decidable (MapWF st) :=
  inferInstanceAs (Decidable (_ ∧ _ ∧ _))

/-- A raw backend segment as delivered in a stream event (JSON object;
absent fields are `none`). Fractional second values are rationals. -/
structure RawSegment where
  id : Option String := none
  text : Option String := none
  start : Option ℚ := none
  start_time : Option ℚ := none
  «end» : Option ℚ := none
  end_time : Option ℚ := none
deriving DecidableEq

/-- `splitTextIntoLines(text)`: split on `\r?\n`, trim each line, drop
blank lines. -/
def splitTextIntoLines (text : String) : List String :=
  if text = "" then []
  else ((splitLinesJs text).map jsTrim).filter (fun l => l != "")

/-- `secondsToMs(value)`: `Math.max(0, Math.round(value * 1000))`;
JS `Math.round x = ⌊x + 1/2⌋` (half-up). On the reduced fraction
`num/den` this floor is `(2000*num + den) / (2*den)` in flooring integer
division (the divisor is positive); `secondsToMs_eq_floor` proves the
agreement with the textbook formula. -/
def secondsToMs (value : ℚ) : Nat :=
  (max 0 ((2000 * value.num + (value.den : Int)) / ((2 * value.den : Nat) : Int))).toNat

/-- `estimateDurationFromText(text)`: 320 ms per whitespace-separated
word (≈187 wpm), or 4000 ms when there are no words. -/
def estimateDurationFromText (text : String) : Nat :=
  let words := (jsWords (jsTrim text)).length
  if words > 0 then words * 320 else 4000

/-- `estimateDurationFromTextLines(lines)`. -/
def estimateDurationFromTextLines (lines : List String) : Nat :=
  if lines.isEmpty then 2000
  else estimateDurationFromText (joinSep " " lines)

/-- The synthesized fallback id `` `${startMs}-${endMs}-${text.length}` ``. -/
def fallbackId (startMs endMs : Nat) (text : String) : String :=
  Nat.repr startMs ++ "-" ++ Nat.repr endMs ++ "-" ++ Nat.repr text.length

/-- `normalizeOpenAISegment(segment)` (`part_000` lines 361–378): `none`
when the segment is null or its text trims to empty; otherwise resolve
start/end (note the `?? startMs + 2` fallback feeds *milliseconds* back
through `secondsToMs`), pick the id (`segment.id || fallback`, so an
empty-string id also falls back), split the text into lines. -/
def normalizeOpenAISegment (segment : Option RawSegment) : Option Segment :=
  match segment with
  | none => none
  | some seg =>
    let text := jsTrim (seg.text.getD "")
    if text = "" then none
    else
      let startMs := secondsToMs ((seg.start <|> seg.start_time).getD 0)
      let endMs := secondsToMs ((seg.«end» <|> seg.end_time).getD ((startMs : ℚ) + 2))
      let id :=
        match seg.id with
        | some s => if s = "" then fallbackId startMs endMs text else s
        | none => fallbackId startMs endMs text
      some { id := id, startMs := startMs, endMs := endMs,
             textLines := splitTextIntoLines text }

/-- `upsertSegment(rawSegment)` (`part_000` lines 309–327): replace in
place when the id exists; otherwise record the id, push, stable-sort by
`startMs` and rebuild the whole id → position map. Returns whether the
collection changed (flush scheduling is I/O and outside the model). -/
def upsertSegment (st : StreamState) (rawSegment : Option RawSegment) :
    Bool × StreamState :=
  match normalizeOpenAISegment rawSegment with
  | none => (false, st)
  | some normalized =>
    match mapGet st.segmentMap normalized.id with
    | some existingIndex =>
      (true, { st with segments := st.segments.set existingIndex normalized })
    | none =>
      let m1 := mapSet st.segmentMap normalized.id st.segments.length
      let sorted := List.insertionSort segLE (st.segments ++ [normalized])
      (true, { segments := sorted, segmentMap := rebuildMap m1 sorted 0 })

/-- `setTextOnly(text, options)` (`part_000` lines 329–347): replace the
whole collection by one synthesized `"text-only"` segment; in append
mode the previous last segment's lines are joined and the new text
appended after a space. `mediaDurationMs` is `getMediaDurationMs()`
(`core.status.duration`, `none`/`some 0` both falsy). -/
def setTextOnly (mediaDurationMs : Option Nat) (st : StreamState)
    (text : String) (append : Bool) : StreamState :=
  let content :=
    match append, st.segments.getLast? with
    | true, some last => jsTrim (joinSep " " last.textLines ++ " " ++ text)
    | _, _ => jsTrim text
  if content = "" then st
  else
    let estimatedDuration :=
      match mediaDurationMs with
      | some d => if d ≠ 0 then d else estimateDurationFromText content
      | none => estimateDurationFromText content
    { segments := [{ id := "text-only", startMs := 0, endMs := estimatedDuration,
                     textLines := splitTextIntoLines content }],
      segmentMap := [("text-only", 0)] }

/-- A parsed server-sent stream event (`data:` JSON payload). -/
structure StreamEvent where
  type : String
  segment : Option RawSegment := none
  segments : Option (List RawSegment) := none
  text : Option String := none
  delta : Option String := none
deriving DecidableEq

/-- The `transcript.text.done` reset: clear the collection, then upsert
every segment of the final list in order. -/
def resetAllSegments (l : List RawSegment) : StreamState :=
  l.foldl (fun acc s => (upsertSegment acc (some s)).2) ⟨[], []⟩

/-- The ids of the segments a final-transcript list normalizes to
(entries whose text trims to empty contribute nothing). -/
def normIds (l : List RawSegment) : List String :=
  l.filterMap (fun r => (normalizeOpenAISegment (some r)).map Segment.id)

/-- `handleEvent(event)` (`part_000` lines 284–307) as a state
transition. The error branch only logs. -/
def handleEvent (mediaDurationMs : Option Nat) (st : StreamState)
    (event : StreamEvent) : StreamState :=
  if event.type = "transcript.text.segment" ∧ event.segment.isSome then
    (upsertSegment st event.segment).2
  else if event.type = "transcript.text.done" then
    match event.segments with
    | some l =>
      if l.length > 0 then resetAllSegments l
      else
        match event.text with
        | some t => setTextOnly mediaDurationMs st t false
        | none => st
    | none =>
      match event.text with
      | some t => setTextOnly mediaDurationMs st t false
      | none => st
  else if event.type = "transcript.text.delta" ∧ event.delta.isSome then
    setTextOnly mediaDurationMs st (event.delta.getD "") true
  else st

/-! ## SRT rendering (`renderSegmentsToSrt` / `normalizeRenderableSegment`,
`part_000` lines 696–740) -/

/-- A renderable segment after normalization. -/
structure NormSeg where
  startMs : Nat
  endMs : Nat
  textLines : List String
deriving DecidableEq

/-- Ordering for the render-time stable sort. -/
def normLE (a b : NormSeg) : Prop := a.startMs ≤ b.startMs

instance : DecidableRel normLE := fun a b => Nat.decLe a.startMs b.startMs

/-- A segment as handed to the renderer: either a log-monitor segment
(`timing` + `text`) or a stream segment (`startMs`/`endMs`/`textLines`);
absent fields are `none`. -/
structure RawRenderable where
  timing : Option String := none
  text : Option (List String) := none
  startMs : Option Nat := none
  endMs : Option Nat := none
  textLines : Option (List String) := none
deriving DecidableEq

/-- Separator matcher for the split regex `\s+-->\s+`: if the input
starts with whitespace, then `-->`, then whitespace, return what follows
the (maximal) separator. -/
def matchArrowSep : List Char → Option (List Char)
  | c :: rest =>
    if isJsSpace c then
      match rest.dropWhile isJsSpace with
      | '-' :: '-' :: '>' :: l2 =>
        match l2 with
        | d :: l3 => if isJsSpace d then some (l3.dropWhile isJsSpace) else none
        | [] => none
      | _ => none
    else none
  | [] => none

/-- Fuelled worker for `split(/\s+-->\s+/)`; every step consumes at least
one character, so fuel `length + 1` never runs out. -/
def splitArrowGo : Nat → List Char → List Char → List (List Char)
  | 0, l, acc => [acc.reverse ++ l]
  | _ + 1, [], acc => [acc.reverse]
  | fuel + 1, c :: rest, acc =>
    match matchArrowSep (c :: rest) with
    | some after => acc.reverse :: splitArrowGo fuel after []
    | none => splitArrowGo fuel rest (c :: acc)

/-- JS `timing.split(/\s+-->\s+/)`. -/
def splitArrow (s : String) : List String :=
  (splitArrowGo (s.data.length + 1) s.data []).map String.mk

/-- `normalizeRenderableSegment(segment)`: with a (truthy) `timing`
field, parse the two timestamps and keep the text lines as-is; otherwise
use `startMs`/`endMs` with the reading-rate estimate as fallback and
filter blank lines (substituting `[""]` if nothing remains). -/
def normalizeRenderableSegment (segment : Option RawRenderable) : Option NormSeg :=
  match segment with
  | none => none
  | some seg =>
    if (seg.timing.getD "") ≠ "" then
      let parts := splitArrow (seg.timing.getD "")
      some { startMs := parseTimestampMs (parts.getD 0 ""),
             endMs := parseTimestampMs (parts.getD 1 ""),
             textLines :=
               match seg.text with
               | some arr => arr
               | none =>
                 match seg.textLines with
                 | some arr => arr
                 | none => [""] }
    else
      let startMs := seg.startMs.getD 0
      let estimateInput :=
        match seg.textLines with
        | some arr => arr
        | none => seg.text.getD []
      let candidates :=
        ([seg.endMs, some (startMs + estimateDurationFromTextLines estimateInput)].filterMap id).filter
          (fun v => startMs < v)
      let endMs :=
        match candidates with
        | [] => startMs + 2000
        | _ :: _ => candidates.foldl max 0
      let textArr :=
        match seg.textLines with
        | some arr => arr
        | none =>
          match seg.text with
          | some arr => arr
          | none => [""]
      let filtered := textArr.filter (fun line => jsTrim line != "")
      some { startMs := startMs, endMs := endMs,
             textLines := if filtered.isEmpty then [""] else filtered }

/-- `renderSegmentsToSrt(segments)` (`part_000` variant): normalize,
drop nulls, stable-sort by `startMs`, emit numbered blocks joined by
`"\n"` (each block ends with one empty line element). -/
def renderSegmentsToSrt (segments : List RawRenderable) : String :=
  if segments.isEmpty then ""
  else
    let normalized := segments.filterMap (fun s => normalizeRenderableSegment (some s))
    if normalized.isEmpty then ""
    else
      let sortedSegs := List.insertionSort normLE normalized
      let lines := sortedSegs.enum.foldl
        (fun acc p =>
          acc ++ [Nat.repr (p.1 + 1),
                  formatTimestamp (p.2.startMs : Int) ++ " --> " ++
                    formatTimestamp (p.2.endMs : Int)] ++
            p.2.textLines ++ [""])
        []
      joinSep "\n" lines

/-- View of a log-monitor segment for the renderer. -/
def LogSeg.toRenderable (s : LogSeg) : RawRenderable :=
  { timing := some s.timing, text := some s.text }

/-! ## Chunked fallback splitter (`part_002` lines 57–87) -/

/-- The windows visited by the `while (processedMs < totalDurationMs)`
loop of `streamTranscription`: pairs of window start offset and duration
`min(10000, remaining)`. Fuelled: every iteration advances `processedMs`
by at least 1 ms, so fuel `totalDurationMs` suffices from `processedMs = 0`. -/
def chunkGo : Nat → Nat → Nat → List (Nat × Nat)
  | 0, _, _ => []
  | fuel + 1, totalDurationMs, processedMs =>
    if processedMs < totalDurationMs then
      let chunkDurationMs := min 10000 (totalDurationMs - processedMs)
      (processedMs, chunkDurationMs) ::
        chunkGo fuel totalDurationMs (processedMs + chunkDurationMs)
    else []

/-- What `streamTranscription` decides to do for a given total duration. -/
inductive ChunkPlan where
  | wholeFile
  | chunked (windows : List (Nat × Nat))
deriving DecidableEq

/-- The branch at the top of `streamTranscription`: unknown or falsy
duration, or duration at most one chunk window (`STREAM_CHUNK_SECONDS *
1000 = 10000`), transcribes the whole file in one request; otherwise the
chunk loop runs. -/
def streamPlanOfDuration (totalDurationMs : Option Nat) : ChunkPlan :=
  match totalDurationMs with
  | none => ChunkPlan.wholeFile
  | some d => if d = 0 ∨ d ≤ 10000 then ChunkPlan.wholeFile else ChunkPlan.chunked (chunkGo d d 0)

/-! ## Concrete scenarios from the spec's examples -/

/-- First example whisper-server log line. -/
def logExampleLine1 : String := "[00:00:01.000 --> 00:00:02.500]  Hello"

/-- Second example whisper-server log line. -/
def logExampleLine2 : String := "[00:00:02.500 --> 00:00:04.000]  world"

/-- The log monitor polls the growing log after each of the two example
lines appears (rereading the whole file each time), then the collected
segments are rendered to SRT. -/
def logExampleRender : String :=
  let r1 := collectNewSegments true logExampleLine1 ⟨[], []⟩
  let r2 := collectNewSegments true (logExampleLine1 ++ "\n" ++ logExampleLine2) r1.2
  renderSegmentsToSrt (r2.2.segments.map LogSeg.toRenderable)

/-- The stream handler processes the two example `transcript.text.delta`
events (`"Hel"` then `"lo"`) with no final event, starting from an empty
collection, with `getMediaDurationMs()` returning `mediaDurationMs`. -/
def deltaExampleState (mediaDurationMs : Option Nat) : StreamState :=
  handleEvent mediaDurationMs
    (handleEvent mediaDurationMs { segments := [], segmentMap := [] }
      { type := "transcript.text.delta", delta := some "Hel" })
    { type := "transcript.text.delta", delta := some "lo" }

/-- Demo collection for the merger witnesses: one segment with id `"a"`. -/
def upsertDemoState : StreamState :=
  { segments := [{ id := "a", startMs := 1000, endMs := 2000, textLines := ["x"] }],
    segmentMap := [("a", 0)] }

/-- Raw segment whose id `"a"` is already present in `upsertDemoState`. -/
def upsertDemoExisting : RawSegment :=
  { id := some "a", text := some "x", start := some 1, «end» := some 2 }

/-- Raw segment with the fresh id `"b"` starting before `"a"`. -/
def upsertDemoNew : RawSegment :=
  { id := some "b", text := some "y", start := some 0, «end» := some 1 }

/-- Raw segment whose text trims to empty. -/
def upsertDemoEmpty : RawSegment :=
  { text := some "   " }

/-- The collection after inserting `"a"` at 0 s and `"b"` at 5 s. -/
def replaceDemoBase : StreamState :=
  (upsertSegment
    (upsertSegment { segments := [], segmentMap := [] }
      (some { id := some "a", text := some "x", start := some 0, «end» := some 1 })).2
    (some { id := some "b", text := some "y", start := some 5, «end» := some 6 })).2

/-- Re-delivery of segment `"a"` moved to 9 s: an in-place replace. -/
def replaceDemoRaw : RawSegment :=
  { id := some "a", text := some "x", start := some 9, «end» := some 10 }

/-- The chunk-splitter property at total duration `D` with the fixed
window `W = 10000` ms: at or below one window the splitter issues one
whole-file request; otherwise it iterates exactly `⌈D/W⌉` windows whose
starts are consecutive multiples of `W`, every window except the last
has duration `W`, the last has duration `D mod W` (or `W` when `W`
divides `D`), and the windows tile `[0, D)` with no gap or overlap. -/
def ChunkSplitterHolds (D : Nat) : Prop :=
  (D ≤ 10000 → streamPlanOfDuration (some D) = ChunkPlan.wholeFile) ∧
  (10000 < D → ∃ ws : List (Nat × Nat),
    streamPlanOfDuration (some D) = ChunkPlan.chunked ws ∧
    ws.length = (D + 10000 - 1) / 10000 ∧
    (∀ i, i < ws.length → ws.get? i = some (i * 10000, min 10000 (D - i * 10000))) ∧
    (∀ i, i + 1 < ws.length → (ws.get? i).map Prod.snd = some 10000) ∧
    (ws.get? (ws.length - 1)).map Prod.snd =
      some (if D % 10000 = 0 then 10000 else D % 10000) ∧
    (ws.get? 0).map Prod.fst = some 0 ∧
    (∀ i, i + 1 < ws.length → ∃ s d s' d',
      ws.get? i = some (s, d) ∧ ws.get? (i + 1) = some (s', d') ∧ s + d = s') ∧
    (∃ s d, ws.get? (ws.length - 1) = some (s, d) ∧ s + d = D))

/-! ## Server teardown (`stopWhisperServer` / `clearRecordedServerPid`,
`transcribe.js` lines 408–435 and 502–514) -/

/-- Outcome of one `/bin/kill` invocation, adversarially chosen. -/
inductive KillOutcome where
  | ok
  | noSuchProcess
  | otherFailure
deriving DecidableEq

/-- The world state `stopWhisperServer` touches: the persisted PID record
file and the module-level `activeServerInfo` reference (by pid). -/
structure ServerWorld where
  pidFile : Option Nat
  activeServer : Option Nat
deriving DecidableEq

/-- `stopWhisperServer(serverInfo)`: resolve the pid
(`(serverInfo || activeServerInfo)?.pid || readRecordedServerPid()`),
send TERM then KILL with every failure swallowed (only logged, `No such
process` treated as already stopped), drop the matching
`activeServerInfo`, and clear the PID record unconditionally as the
final step. Returns `Except` to make "raises no error" a theorem rather
than a typing accident. -/
def stopWhisperServer (serverInfo : Option Nat) (w : ServerWorld)
    (termOutcome killOutcome : KillOutcome) : Except String ServerWorld :=
  let info := serverInfo <|> w.activeServer
  let recordedPid := w.pidFile
  let pid :=
    match info with
    | some p => if p ≠ 0 then some p else recordedPid
    | none => recordedPid
  match pid with
  | none => Except.ok { w with pidFile := none }
  | some p =>
    if p = 0 then Except.ok { w with pidFile := none }
    else
      let w1 :=
        match termOutcome with
        | KillOutcome.ok => w
        | KillOutcome.noSuchProcess => w
        | KillOutcome.otherFailure => w
      let w2 :=
        match killOutcome with
        | KillOutcome.ok => w1
        | KillOutcome.noSuchProcess => w1
        | KillOutcome.otherFailure => w1
      let w3 :=
        if w2.activeServer = some p then { w2 with activeServer := none } else w2
      Except.ok { w3 with pidFile := none }

/-! ## Theorems -/

set_option maxRecDepth 10000 in
theorem twoDigitOk_of_lt : ∀ n < 100, twoDigitOk n = true := by decide

set_option maxRecDepth 100000 in
theorem threeDigitOk_of_lt : ∀ n < 1000, threeDigitOk n = true := by decide

theorem pad2_spec (n : Nat) (h : n < 100) :
    ∃ a b : Char, (padStart (Nat.repr n) 2 '0').data = [a, b] ∧
      a.isDigit = true ∧ b.isDigit = true ∧ digitVal a * 10 + digitVal b = n := by
  have hok := twoDigitOk_of_lt n h
  unfold twoDigitOk at hok
  rcases hd : (padStart (Nat.repr n) 2 '0').data with _ | ⟨a, _ | ⟨b, _ | ⟨c, t⟩⟩⟩ <;>
    rw [hd] at hok
  · simp at hok
  · simp at hok
  · simp only [Bool.and_eq_true, decide_eq_true_eq] at hok
    exact ⟨a, b, rfl, hok.1.1, hok.1.2, hok.2⟩
  · simp at hok

theorem pad3_spec (n : Nat) (h : n < 1000) :
    ∃ a b c : Char, (padStart (Nat.repr n) 3 '0').data = [a, b, c] ∧
      a.isDigit = true ∧ b.isDigit = true ∧ c.isDigit = true ∧
      digitVal a * 100 + digitVal b * 10 + digitVal c = n := by
  have hok := threeDigitOk_of_lt n h
  unfold threeDigitOk at hok
  rcases hd : (padStart (Nat.repr n) 3 '0').data with _ | ⟨a, _ | ⟨b, _ | ⟨c, _ | ⟨d, t⟩⟩⟩⟩ <;>
    rw [hd] at hok
  · simp at hok
  · simp at hok
  · simp at hok
  · simp only [Bool.and_eq_true, decide_eq_true_eq] at hok
    exact ⟨a, b, c, rfl, hok.1.1.1, hok.1.1.2, hok.1.2, hok.2⟩
  · simp at hok

/-- The integer-division form of `secondsToMs` agrees with
`⌊value * 1000 + 1/2⌋` clamped to 0, i.e. with JavaScript
`Math.max(0, Math.round(value * 1000))`. -/
theorem secondsToMs_eq_floor (q : ℚ) :
    secondsToMs q = (max 0 ⌊q * 1000 + 1 / 2⌋).toNat := by
  have hden : (0 : ℚ) < (q.den : ℚ) := by exact_mod_cast q.pos
  have hqd : q * ((q.den : ℚ)) = (q.num : ℚ) := by
    rw [mul_comm, Rat.den_mul_eq_num]
  have hb : ((2 * q.den : ℕ) : ℚ) ≠ 0 := by
    push_cast
    positivity
  have hx : q * 1000 + 1 / 2 =
      (((2000 * q.num + (q.den : Int)) : ℤ) : ℚ) / ((2 * q.den : ℕ) : ℚ) := by
    rw [eq_div_iff hb]
    push_cast
    linear_combination (2000 : ℚ) * hqd
  rw [secondsToMs, hx, Rat.floor_intCast_div_natCast]

/-- The two-digit fields of an SRT timestamp parse back to their values:
`parseTimestampMs` on a string built from in-range padded fields recovers
the millisecond total. -/
theorem parse_format_fields (h m s mi : Nat)
    (hh : h < 100) (hm : m < 60) (hs : s < 60) (hmi : mi < 1000) :
    parseTimestampMs
      (padStart (Nat.repr h) 2 '0' ++ ":" ++ padStart (Nat.repr m) 2 '0' ++ ":" ++
        padStart (Nat.repr s) 2 '0' ++ "," ++ padStart (Nat.repr mi) 3 '0') =
      ((h * 60 + m) * 60 + s) * 1000 + mi := by
  obtain ⟨a1, a2, hA, da1, da2, va⟩ := pad2_spec h hh
  obtain ⟨b1, b2, hB, db1, db2, vb⟩ := pad2_spec m (by omega)
  obtain ⟨c1, c2, hC, dc1, dc2, vc⟩ := pad2_spec s (by omega)
  obtain ⟨d1, d2, d3, hD, dd1, dd2, dd3, vd⟩ := pad3_spec mi hmi
  have hcolon : (":" : String).data = [':'] := rfl
  have hcomma : ("," : String).data = [','] := rfl
  unfold parseTimestampMs
  rw [String.data_append, String.data_append, String.data_append, String.data_append,
    String.data_append, String.data_append, hA, hB, hC, hD, hcolon, hcomma]
  show (match matchSrtTimestamp
      [a1, a2, ':', b1, b2, ':', c1, c2, ',', d1, d2, d3] with
    | some (hh, mm, ss, ms) => ((hh * 60 + mm) * 60 + ss) * 1000 + ms
    | none => 0) = ((h * 60 + m) * 60 + s) * 1000 + mi
  unfold matchSrtTimestamp
  simp only [da1, da2, db1, db2, dc1, dc2, dd1, dd2, dd3, Bool.true_and, Bool.and_true,
    decide_True, if_true, reduceIte]
  rw [va, vb, vc, vd]

/-- C9: `formatTimestamp` is total and always well-formed — for every
integer input the output decomposes as `hours:minutes:seconds,millis`
with `minutes < 60`, `seconds < 60`, `millis < 1000`, each field
zero-padded to its fixed width, and the fields sum back to
`max 0 (floor of the input)`. -/
theorem formatTimestamp_wellFormed (ms : Int) :
    ∃ h m s mi : Nat, m < 60 ∧ s < 60 ∧ mi < 1000 ∧
      formatTimestamp ms =
        padStart (Nat.repr h) 2 '0' ++ ":" ++ padStart (Nat.repr m) 2 '0' ++ ":" ++
          padStart (Nat.repr s) 2 '0' ++ "," ++ padStart (Nat.repr mi) 3 '0' ∧
      h * 3600000 + m * 60000 + s * 1000 + mi = (max 0 ms).toNat := by
  refine ⟨(max 0 ms).toNat / 3600000, (max 0 ms).toNat % 3600000 / 60000,
    (max 0 ms).toNat % 60000 / 1000, (max 0 ms).toNat % 1000, ?_, ?_, ?_, rfl, ?_⟩
  · omega
  · omega
  · omega
  · omega

/-- C1 counterexample: at 100 hours (360000000 ms) the formatted hours
field has three digits, which the parser's two-digit pattern rejects, so
the round-trip collapses to 0 instead of returning the input. -/
theorem roundTrip_counterexample :
    parseTimestampMs (formatTimestamp 360000000) = 0 ∧ (0 : Nat) ≠ 360000000 := by
  exact ⟨rfl, by decide⟩

/-- C1 (amended): the round-trip `parseTimestampMs (formatTimestamp x) = x`
holds exactly on the two-digit-hours range, i.e. for every `x` below
360000000 ms (100 hours). -/
theorem roundTrip_of_lt (x : Nat) (hx : x < 360000000) :
    parseTimestampMs (formatTimestamp (x : Int)) = x := by
  have hmax : (max 0 (x : Int)).toNat = x := by
    rw [max_eq_right (Int.natCast_nonneg x)]
    exact Int.toNat_natCast x
  have hfmt : formatTimestamp (x : Int) =
      padStart (Nat.repr (x / 3600000)) 2 '0' ++ ":" ++
        padStart (Nat.repr (x % 3600000 / 60000)) 2 '0' ++ ":" ++
        padStart (Nat.repr (x % 60000 / 1000)) 2 '0' ++ "," ++
        padStart (Nat.repr (x % 1000)) 3 '0' := by
    unfold formatTimestamp
    rw [hmax]
  rw [hfmt, parse_format_fields (x / 3600000) (x % 3600000 / 60000) (x % 60000 / 1000)
    (x % 1000) (by omega) (by omega) (by omega) (by omega)]
  omega

/-- C1 amended-claim witness at a concrete input. -/
theorem roundTrip_of_lt_witness :
    5025678 < 360000000 ∧ parseTimestampMs (formatTimestamp (5025678 : Int)) = 5025678 :=
  ⟨by decide, roundTrip_of_lt 5025678 (by decide)⟩

/-- C7: a `transcript.text.done` event whose `segments` field is an empty
array and which has no `text` field leaves the segment collection exactly
unchanged (same segments, same id map), for every accumulated state. -/
theorem handleEvent_emptyDone_noop (mediaDurationMs : Option Nat) (st : StreamState) :
    handleEvent mediaDurationMs st
      { type := "transcript.text.done", segments := some [] } = st := by
  rfl

/-- Every single `stopWhisperServer` call succeeds (all termination
errors are swallowed) and leaves the PID record cleared. -/
theorem stop_ok (serverInfo : Option Nat) (w : ServerWorld) (t k : KillOutcome) :
    ∃ w' : ServerWorld, stopWhisperServer serverInfo w t k = Except.ok w' ∧
      w'.pidFile = none := by
  unfold stopWhisperServer
  dsimp only
  repeat' split
  all_goals exact ⟨_, rfl, rfl⟩

/-- C8: `stop()` is idempotent and clearing: every first call returns
without error with the PID record absent, and a second call on the same
session again returns without error with the record still absent,
whatever the kill outcomes were. -/
theorem stop_idempotent_clears (serverInfo : Option Nat) (w : ServerWorld)
    (t1 k1 t2 k2 : KillOutcome) :
    ∃ w1 w2 : ServerWorld,
      stopWhisperServer serverInfo w t1 k1 = Except.ok w1 ∧ w1.pidFile = none ∧
        stopWhisperServer serverInfo w1 t2 k2 = Except.ok w2 ∧ w2.pidFile = none := by
  obtain ⟨w1, h1, p1⟩ := stop_ok serverInfo w t1 k1
  obtain ⟨w2, h2, p2⟩ := stop_ok serverInfo w1 t2 k2
  exact ⟨w1, w2, h1, p1, h2, p2⟩

/-- C5 counterexample: the claimed output string carries a double
trailing newline, but `lines.join("\n")` places nothing after the final
empty element, so the rendered document ends in a single newline. -/
theorem logExample_render_counterexample :
    logExampleRender ≠
      "1\n00:00:01,000 --> 00:00:02,500\nHello\n\n2\n00:00:02,500 --> 00:00:04,000\nworld\n\n" := by
  decide

/-- C5 (amended): ingesting the two example log lines and rendering
yields exactly the two numbered blocks separated by one blank line, with
a single trailing newline after the last block. -/
theorem logExample_render_eq :
    logExampleRender =
      "1\n00:00:01,000 --> 00:00:02,500\nHello\n\n2\n00:00:02,500 --> 00:00:04,000\nworld\n" := by
  decide

/-- C6 counterexample: after the two delta events the single synthesized
segment's text is not `"Hello"` — the append path joins the previous
text and the new delta with a space. -/
theorem deltaExample_counterexample :
    (deltaExampleState none).segments.map Segment.textLines ≠ [["Hello"]] := by
  decide

/-- C6 (amended): the two delta events leave exactly one synthesized
segment whose text is `"Hel lo"` — the running segment's lines and each
new delta are joined with a single space, then trimmed — whatever the
known media duration is. -/
theorem deltaExample_state (mediaDurationMs : Option Nat) :
    (deltaExampleState mediaDurationMs).segments.map Segment.textLines = [["Hel lo"]] ∧
      (deltaExampleState mediaDurationMs).segments.map Segment.id = ["text-only"] := by
  cases mediaDurationMs <;> exact ⟨rfl, rfl⟩

/-- Closed form of the chunk loop: from offset `p` with enough fuel it
produces `⌈(total - p)/10000⌉` windows; window `i` starts at
`p + i * 10000` and lasts `min 10000` of what remains. -/
theorem chunkGo_spec (total fuel : Nat) : ∀ p : Nat, total - p ≤ fuel →
    (chunkGo fuel total p).length = (total - p + 9999) / 10000 ∧
    ∀ i, (chunkGo fuel total p).get? i =
      if i < (total - p + 9999) / 10000 then
        some (p + i * 10000, min 10000 (total - (p + i * 10000)))
      else none := by
  induction fuel with
  | zero =>
    intro p hf
    have h0 : total - p = 0 := Nat.le_zero.mp hf
    rw [h0]
    refine ⟨by simp [chunkGo], ?_⟩
    intro i
    simp [chunkGo]
  | succ fuel ih =>
    intro p hf
    by_cases hp : p < total
    · have hstep : chunkGo (fuel + 1) total p =
          (p, min 10000 (total - p)) ::
            chunkGo fuel total (p + min 10000 (total - p)) := by
        rw [chunkGo]
        simp [hp]
      obtain ⟨hlen, hget⟩ := ih (p + min 10000 (total - p)) (by omega)
      have hn : (total - p + 9999) / 10000 =
          (total - (p + min 10000 (total - p)) + 9999) / 10000 + 1 := by omega
      constructor
      · rw [hstep]
        simp only [List.length_cons, hlen]
        omega
      · intro i
        match i with
        | 0 =>
          rw [hstep, if_pos (by omega)]
          simp
        | j + 1 =>
          rw [hstep]
          simp only [List.get?_cons_succ]
          rw [hget j, hn]
          by_cases hj : j < (total - (p + min 10000 (total - p)) + 9999) / 10000
          · rw [if_pos hj, if_pos (by omega)]
            have hd : min 10000 (total - p) = 10000 := by omega
            have harith : p + min 10000 (total - p) + j * 10000 = p + (j + 1) * 10000 := by
              omega
            rw [harith]
          · rw [if_neg hj, if_neg (by omega)]
    · have hstep : chunkGo (fuel + 1) total p = [] := by
        rw [chunkGo]
        simp [hp]
      have h0 : total - p = 0 := by omega
      rw [hstep, h0]
      refine ⟨by simp, ?_⟩
      intro i
      simp

/-- C4: `streamTranscription` transcribes whole-file in one request when
the duration fits one window, and otherwise its chunk loop tiles `[0, D)`
with `⌈D/10000⌉` gapless windows of duration 10000 except for the final
remainder window. -/
theorem chunk_splitter (D : Nat) (hD : 0 < D) : ChunkSplitterHolds D := by
  constructor
  · intro hle
    simp only [streamPlanOfDuration]
    rw [if_pos (Or.inr hle)]
  · intro hgt
    obtain ⟨hlen, hget⟩ := chunkGo_spec D D 0 (by omega)
    simp only [Nat.sub_zero] at hlen hget
    have hget' : ∀ i, (chunkGo D D 0).get? i =
        if i < (D + 9999) / 10000 then
          some (i * 10000, min 10000 (D - i * 10000))
        else none := by
      intro i
      rw [hget i]
      simp
    have hlen' : (chunkGo D D 0).length = (D + 9999) / 10000 := hlen
    have hn2 : 2 ≤ (D + 9999) / 10000 := by omega
    refine ⟨chunkGo D D 0, ?_, ?_, ?_, ?_, ?_, ?_, ?_, ?_⟩
    · simp only [streamPlanOfDuration]
      rw [if_neg (by omega)]
    · rw [hlen']
      omega
    · intro i hi
      rw [hlen'] at hi
      rw [hget' i, if_pos hi]
    · intro i hi
      rw [hlen'] at hi
      rw [hget' i, if_pos (by omega)]
      have : min 10000 (D - i * 10000) = 10000 := by omega
      rw [this]
      rfl
    · rw [hlen', hget' ((D + 9999) / 10000 - 1), if_pos (by omega)]
      have : min 10000 (D - ((D + 9999) / 10000 - 1) * 10000) =
          if D % 10000 = 0 then 10000 else D % 10000 := by
        by_cases h0 : D % 10000 = 0 <;> simp [h0] <;> omega
      rw [this]
      rfl
    · rw [hget' 0, if_pos (by omega)]
      rfl
    · intro i hi
      rw [hlen'] at hi
      refine ⟨i * 10000, min 10000 (D - i * 10000),
        (i + 1) * 10000, min 10000 (D - (i + 1) * 10000), ?_, ?_, ?_⟩
      · rw [hget' i, if_pos (by omega)]
      · rw [hget' (i + 1), if_pos (by omega)]
      · omega
    · refine ⟨((D + 9999) / 10000 - 1) * 10000,
        min 10000 (D - ((D + 9999) / 10000 - 1) * 10000), ?_, ?_⟩
      · rw [hlen', hget' ((D + 9999) / 10000 - 1), if_pos (by omega)]
      · omega

/-- C4 witness at a concrete duration of 20001 ms (three windows). -/
theorem chunk_splitter_witness : 0 < 20001 ∧ ChunkSplitterHolds 20001 :=
  ⟨by decide, chunk_splitter 20001 (by decide)⟩

/-! ### Association-list map machinery -/

theorem mapGet_mapSet_self (m : SegmentMap) (k : String) (v : Nat) :
    mapGet (mapSet m k v) k = some v := by
  induction m with
  | nil => simp [mapSet, mapGet]
  | cons p rest ih =>
    obtain ⟨a, b⟩ := p
    by_cases ha : a = k
    · subst ha
      simp [mapSet, mapGet]
    · simp [mapSet, mapGet, ha, ih]

theorem mapGet_mapSet_ne (m : SegmentMap) {k k' : String} (v : Nat) (h : k ≠ k') :
    mapGet (mapSet m k v) k' = mapGet m k' := by
  induction m with
  | nil => simp [mapSet, mapGet, h]
  | cons p rest ih =>
    obtain ⟨a, b⟩ := p
    by_cases ha : a = k
    · subst ha
      simp [mapSet, mapGet, h]
    · simp [mapSet, mapGet, ha, ih]

theorem mapGet_eq_some_mem {m : SegmentMap} {k : String} {i : Nat}
    (h : mapGet m k = some i) : (k, i) ∈ m := by
  induction m with
  | nil => simp [mapGet] at h
  | cons p rest ih =>
    obtain ⟨a, b⟩ := p
    by_cases ha : a = k
    · subst ha
      have hb : b = i := by simpa [mapGet] using h
      subst hb
      exact List.mem_cons_self _ _
    · simp only [mapGet, if_neg ha] at h
      exact List.mem_cons_of_mem _ (ih h)

theorem keys_mapSet (m : SegmentMap) (k : String) (v : Nat) :
    (mapSet m k v).map Prod.fst = m.map Prod.fst ∨
      (mapSet m k v).map Prod.fst = m.map Prod.fst ++ [k] := by
  induction m with
  | nil => right; simp [mapSet]
  | cons p rest ih =>
    obtain ⟨a, b⟩ := p
    by_cases ha : a = k
    · subst ha
      left
      simp [mapSet]
    · rcases ih with h | h
      · left
        simp [mapSet, ha, h]
      · right
        simp [mapSet, ha, h]

theorem mapGet_eq_none_forall {m : SegmentMap} {k : String}
    (h : mapGet m k = none) : ∀ v, (k, v) ∉ m := by
  induction m with
  | nil => simp
  | cons p rest ih =>
    obtain ⟨a, b⟩ := p
    by_cases ha : a = k
    · subst ha
      simp [mapGet] at h
    · simp only [mapGet, if_neg ha] at h
      intro v hv
      rcases List.mem_cons.mp hv with hv | hv
      · exact ha (by injection hv with h1 h2; exact h1.symm)
      · exact ih h v hv

theorem nodupKeys_mapSet {m : SegmentMap} (k : String) (v : Nat) (h : NodupKeys m)
    (hk : mapGet m k = none) : NodupKeys (mapSet m k v) := by
  unfold NodupKeys at h ⊢
  rcases keys_mapSet m k v with hkeys | hkeys
  · rwa [hkeys]
  · rw [hkeys, List.nodup_append]
    refine ⟨h, List.nodup_singleton k, ?_⟩
    intro x hx hxk
    simp only [List.mem_singleton] at hxk
    obtain ⟨p, hp, hpk⟩ := List.mem_map.mp hx
    have hp1 : p.1 = k := by rw [hpk, hxk]
    have hpe : p = (k, p.2) := by rw [← hp1]
    exact mapGet_eq_none_forall hk p.2 (hpe ▸ hp)

theorem mem_mapSet {m : SegmentMap} {k : String} {v : Nat} {p : String × Nat}
    (hnd : NodupKeys m) (h : p ∈ mapSet m k v) : p = (k, v) ∨ (p ∈ m ∧ p.1 ≠ k) := by
  induction m with
  | nil =>
    left
    simpa [mapSet] using h
  | cons q rest ih =>
    obtain ⟨a, b⟩ := q
    have hndr : NodupKeys rest := by
      unfold NodupKeys at hnd ⊢
      exact (List.nodup_cons.mp hnd).2
    by_cases ha : a = k
    · subst ha
      simp only [mapSet, if_pos rfl] at h
      rcases List.mem_cons.mp h with hp | hp
      · left; exact hp
      · right
        refine ⟨List.mem_cons_of_mem _ hp, ?_⟩
        intro hp1
        have : a ∈ rest.map Prod.fst := by
          rw [← hp1]
          exact List.mem_map_of_mem _ hp
        exact (List.nodup_cons.mp hnd).1 this
    · simp only [mapSet, if_neg ha] at h
      rcases List.mem_cons.mp h with hp | hp
      · right
        subst hp
        exact ⟨List.mem_cons_self _ _, ha⟩
      · rcases ih hndr hp with hp' | hp'
        · left; exact hp'
        · right; exact ⟨List.mem_cons_of_mem _ hp'.1, hp'.2⟩

theorem keys_mapSet_of_get_some {m : SegmentMap} {k : String} {j : Nat} (v : Nat)
    (h : mapGet m k = some j) : (mapSet m k v).map Prod.fst = m.map Prod.fst := by
  induction m with
  | nil => simp [mapGet] at h
  | cons p rest ih =>
    obtain ⟨a, b⟩ := p
    by_cases ha : a = k
    · subst ha
      simp [mapSet]
    · simp only [mapGet, if_neg ha] at h
      simp [mapSet, ha, ih h]

theorem nodupKeys_mapSet_any {m : SegmentMap} (k : String) (v : Nat) (h : NodupKeys m) :
    NodupKeys (mapSet m k v) := by
  cases hg : mapGet m k with
  | none => exact nodupKeys_mapSet _ _ h hg
  | some j =>
    unfold NodupKeys at h ⊢
    rw [keys_mapSet_of_get_some _ hg]
    exact h

theorem nodupKeys_rebuildMap {l : List Segment} :
    ∀ (m : SegmentMap) (i : Nat), NodupKeys m → NodupKeys (rebuildMap m l i) := by
  induction l with
  | nil => intro m i h; exact h
  | cons a rest ih =>
    intro m i h
    exact ih _ _ (nodupKeys_mapSet_any _ _ h)

theorem mem_rebuildMap {l : List Segment} :
    ∀ (m : SegmentMap) (i : Nat) (p : String × Nat), NodupKeys m → p ∈ rebuildMap m l i →
      (∃ j s, l.get? j = some s ∧ p = (s.id, i + j)) ∨
        (p ∈ m ∧ p.1 ∉ l.map Segment.id) := by
  induction l with
  | nil =>
    intro m i p _ h
    right
    exact ⟨h, by simp⟩
  | cons a rest ih =>
    intro m i p hnd h
    have hnd1 : NodupKeys (mapSet m a.id i) := nodupKeys_mapSet_any _ _ hnd
    rcases ih (mapSet m a.id i) (i + 1) p hnd1 h with ⟨j, s, hj, hp⟩ | ⟨hmem, hnotin⟩
    · left
      have harith : i + 1 + j = i + (j + 1) := by omega
      rw [harith] at hp
      exact ⟨j + 1, s, by simpa using hj, hp⟩
    · rcases mem_mapSet hnd hmem with hp' | ⟨hp', hne⟩
      · left
        refine ⟨0, a, rfl, ?_⟩
        simpa using hp'
      · right
        refine ⟨hp', ?_⟩
        simp only [List.map_cons, List.mem_cons]
        push_neg
        exact ⟨hne, hnotin⟩

theorem rebuildMap_get_not_mem {l : List Segment} :
    ∀ (m : SegmentMap) (i : Nat) {k : String}, (∀ s ∈ l, s.id ≠ k) →
      mapGet (rebuildMap m l i) k = mapGet m k := by
  induction l with
  | nil => intro m i k _; rfl
  | cons a rest ih =>
    intro m i k h
    show mapGet (rebuildMap (mapSet m a.id i) rest (i + 1)) k = mapGet m k
    rw [ih _ _ (fun s hs => h s (List.mem_cons_of_mem a hs))]
    exact mapGet_mapSet_ne _ _ (h a (List.mem_cons_self a rest))

theorem rebuildMap_get_nth {l : List Segment} :
    ∀ (m : SegmentMap) (i : Nat) {j : Nat} {s : Segment},
      (l.map Segment.id).Nodup → l.get? j = some s →
      mapGet (rebuildMap m l i) s.id = some (i + j) := by
  induction l with
  | nil =>
    intro m i j s _ hj
    simp at hj
  | cons a rest ih =>
    intro m i j s hnd hj
    have hnda : a.id ∉ rest.map Segment.id := (List.nodup_cons.mp hnd).1
    have hndr : (rest.map Segment.id).Nodup := (List.nodup_cons.mp hnd).2
    match j with
    | 0 =>
      have ha : a = s := by simpa using hj
      subst ha
      show mapGet (rebuildMap (mapSet m a.id i) rest (i + 1)) a.id = some (i + 0)
      rw [rebuildMap_get_not_mem _ _ (fun t ht hta => hnda (by
          rw [← hta]
          exact List.mem_map_of_mem _ ht)),
        mapGet_mapSet_self]
      rfl
    | j' + 1 =>
      have hj' : rest.get? j' = some s := by simpa using hj
      have := ih (mapSet m a.id i) (i + 1) hndr hj'
      have harith : i + 1 + j' = i + (j' + 1) := by omega
      rwa [harith] at this

/-! ### Preservation of the merger invariant -/

theorem mapWF_of_get? {st : StreamState}
    (h1 : ∀ p ∈ st.segmentMap, (st.segments.get? p.2).map Segment.id = some p.1)
    (h2 : ∀ j s, st.segments.get? j = some s → mapGet st.segmentMap s.id = some j)
    (h3 : NodupKeys st.segmentMap) : MapWF st := by
  refine ⟨h1, ?_, h3⟩
  intro i
  exact h2 i.val _ (List.get?_eq_get i.isLt)

theorem mapWF_get?_of_get {st : StreamState} (hwf : MapWF st) {j : Nat} {s : Segment}
    (hj : st.segments.get? j = some s) : mapGet st.segmentMap s.id = some j := by
  obtain ⟨hlt, hget⟩ := List.get?_eq_some.mp hj
  have h2 := hwf.2.1 ⟨j, hlt⟩
  rwa [hget] at h2

theorem mapWF_nodup_ids {st : StreamState} (hwf : MapWF st) :
    (st.segments.map Segment.id).Nodup := by
  rw [List.nodup_iff_get?_ne_get?]
  intro i j hij hjlen heq
  rw [List.length_map] at hjlen
  have hilen : i < st.segments.length := lt_trans hij hjlen
  obtain ⟨si, hsi⟩ : ∃ si, st.segments.get? i = some si :=
    ⟨_, List.get?_eq_get hilen⟩
  obtain ⟨sj, hsj⟩ : ∃ sj, st.segments.get? j = some sj :=
    ⟨_, List.get?_eq_get hjlen⟩
  rw [List.get?_map, List.get?_map, hsi, hsj] at heq
  have hid : si.id = sj.id := by simpa using heq
  have h1 := mapWF_get?_of_get hwf hsi
  have h2 := mapWF_get?_of_get hwf hsj
  rw [hid, h2] at h1
  exact absurd (Option.some.inj h1) (Nat.ne_of_gt hij)

theorem mapWF_not_mem_of_none {st : StreamState} (hwf : MapWF st) {k : String}
    (hnone : mapGet st.segmentMap k = none) : ∀ s ∈ st.segments, s.id ≠ k := by
  intro s hs hid
  obtain ⟨j, hj⟩ := List.mem_iff_get?.mp hs
  have := mapWF_get?_of_get hwf hj
  rw [hid, hnone] at this
  exact Option.noConfusion this

theorem replace_wf {st : StreamState} (hwf : MapWF st) {n : Segment} {idx : Nat}
    (hg : mapGet st.segmentMap n.id = some idx) :
    MapWF { st with segments := st.segments.set idx n } := by
  obtain ⟨h1, _h2, h3⟩ := hwf
  have hidn : (st.segments.get? idx).map Segment.id = some n.id :=
    h1 _ (mapGet_eq_some_mem hg)
  obtain ⟨s0, hs0, hs0id⟩ : ∃ s0, st.segments.get? idx = some s0 ∧ s0.id = n.id := by
    cases hq : st.segments.get? idx with
    | none => rw [hq] at hidn; simp at hidn
    | some s0 =>
      rw [hq] at hidn
      exact ⟨s0, rfl, by simpa using hidn⟩
  have hlt : idx < st.segments.length := (List.get?_eq_some.mp hs0).1
  refine mapWF_of_get? ?_ ?_ h3
  · intro p hp
    have hold := h1 p hp
    by_cases hpe : p.2 = idx
    · rw [hpe] at hold ⊢
      rw [hs0] at hold
      simp only [Option.map_some', Option.some.injEq] at hold
      rw [List.get?_eq_getElem?, List.getElem?_set_self hlt]
      simp [← hold, hs0id]
    · rw [List.get?_eq_getElem?, List.getElem?_set_ne (fun h => hpe h.symm),
        ← List.get?_eq_getElem?]
      exact hold
  · intro j s hj
    by_cases hje : j = idx
    · subst hje
      have : s = n := by
        rw [List.get?_eq_getElem?, List.getElem?_set_self hlt] at hj
        simpa using hj.symm
      subst this
      exact hg ▸ congrArg _ rfl
    · rw [List.get?_eq_getElem?, List.getElem?_set_ne (fun h => hje h.symm),
        ← List.get?_eq_getElem?] at hj
      exact mapWF_get?_of_get ⟨h1, _h2, h3⟩ hj

theorem insert_wf {st : StreamState} (hwf : MapWF st) {n : Segment}
    (hnone : mapGet st.segmentMap n.id = none) :
    MapWF { segments := List.insertionSort segLE (st.segments ++ [n]),
            segmentMap := rebuildMap (mapSet st.segmentMap n.id st.segments.length)
              (List.insertionSort segLE (st.segments ++ [n])) 0 } := by
  have hperm : (List.insertionSort segLE (st.segments ++ [n])).Perm (st.segments ++ [n]) :=
    List.perm_insertionSort segLE _
  have hpushed : ((st.segments ++ [n]).map Segment.id).Nodup := by
    rw [List.map_append, List.nodup_append]
    refine ⟨mapWF_nodup_ids hwf, List.nodup_singleton n.id, ?_⟩
    intro x hx hxn
    simp only [List.map_cons, List.map_nil, List.mem_singleton] at hxn
    subst hxn
    obtain ⟨s, hs, hsid⟩ := List.mem_map.mp hx
    exact mapWF_not_mem_of_none hwf hnone s hs hsid
  have hnodup : ((List.insertionSort segLE (st.segments ++ [n])).map Segment.id).Nodup :=
    ((hperm.map Segment.id).nodup_iff).mpr hpushed
  have hm1 : NodupKeys (mapSet st.segmentMap n.id st.segments.length) :=
    nodupKeys_mapSet _ _ hwf.2.2 hnone
  refine mapWF_of_get? ?_ ?_ (nodupKeys_rebuildMap _ _ hm1)
  · intro p hp
    rcases mem_rebuildMap _ _ _ hm1 hp with ⟨j, s, hj, hps⟩ | ⟨hmem, hnotin⟩
    · subst hps
      simp only [Nat.zero_add]
      rw [hj]
      rfl
    · exfalso
      rcases mem_mapSet hwf.2.2 hmem with hpv | ⟨hpm, _⟩
      · apply hnotin
        rw [hpv]
        have : n ∈ List.insertionSort segLE (st.segments ++ [n]) :=
          hperm.mem_iff.mpr (List.mem_append_right _ (List.mem_singleton_self n))
        exact List.mem_map_of_mem _ this
      · have hold := hwf.1 p hpm
        obtain ⟨s0, hs0, hs0id⟩ : ∃ s0, st.segments.get? p.2 = some s0 ∧ s0.id = p.1 := by
          cases hq : st.segments.get? p.2 with
          | none => rw [hq] at hold; simp at hold
          | some s0 =>
            rw [hq] at hold
            exact ⟨s0, rfl, by simpa using hold⟩
        apply hnotin
        rw [← hs0id]
        have : s0 ∈ List.insertionSort segLE (st.segments ++ [n]) :=
          hperm.mem_iff.mpr (List.mem_append_left _ (List.get?_mem hs0))
        exact List.mem_map_of_mem _ this
  · intro j s hj
    have := rebuildMap_get_nth (mapSet st.segmentMap n.id st.segments.length) 0
      hnodup hj
    simpa using this

theorem upsert_preserves_wf (st : StreamState) (raw : Option RawSegment)
    (hwf : MapWF st) : MapWF (upsertSegment st raw).2 := by
  cases hn : normalizeOpenAISegment raw with
  | none => simpa [upsertSegment, hn] using hwf
  | some n =>
    cases hg : mapGet st.segmentMap n.id with
    | some idx =>
      simpa [upsertSegment, hn, hg] using replace_wf hwf hg
    | none =>
      simpa [upsertSegment, hn, hg] using insert_wf hwf hg

/-- An upsert that inserts a fresh id sorts the whole array. -/
theorem upsert_insert_sorted (st : StreamState) (raw : Option RawSegment) {n : Segment}
    (hn : normalizeOpenAISegment raw = some n)
    (hnone : mapGet st.segmentMap n.id = none) :
    SortedByStart (upsertSegment st raw).2.segments := by
  simp only [upsertSegment, hn, hnone]
  exact List.sorted_insertionSort segLE _

/-- C2: `upsertSegment` keeps the length unchanged when the normalized
id is already present; a new id grows the length by exactly one and the
result is sorted ascending by `startMs`; an input whose text trims to
empty (or a null segment) is a `false` no-op. -/
theorem upsertSegment_spec (st : StreamState) (raw : Option RawSegment) :
    (∀ n, normalizeOpenAISegment raw = some n →
      (mapGet st.segmentMap n.id).isSome = true →
      (upsertSegment st raw).2.segments.length = st.segments.length) ∧
    (∀ n, normalizeOpenAISegment raw = some n →
      mapGet st.segmentMap n.id = none →
      (upsertSegment st raw).2.segments.length = st.segments.length + 1 ∧
      SortedByStart (upsertSegment st raw).2.segments) ∧
    (jsTrim ((raw.bind RawSegment.text).getD "") = "" →
      upsertSegment st raw = (false, st)) := by
  refine ⟨?_, ?_, ?_⟩
  · intro n hn hsome
    obtain ⟨i, hi⟩ := Option.isSome_iff_exists.mp hsome
    simp [upsertSegment, hn, hi]
  · intro n hn hnone
    refine ⟨?_, upsert_insert_sorted st raw hn hnone⟩
    simp [upsertSegment, hn, hnone, List.length_insertionSort]
  · intro h
    match raw with
    | none => rfl
    | some seg =>
      have htext : jsTrim (seg.text.getD "") = "" := by simpa using h
      simp [upsertSegment, normalizeOpenAISegment, htext]

/-- C2 witness: on the demo collection, re-upserting id `"a"` keeps
length 1, inserting id `"b"` yields a sorted two-element collection, and
a blank-text segment is a no-op. -/
theorem upsertSegment_spec_witness :
    (upsertSegment upsertDemoState (some upsertDemoExisting)).2.segments.length =
        upsertDemoState.segments.length ∧
    ((upsertSegment upsertDemoState (some upsertDemoNew)).2.segments.length =
        upsertDemoState.segments.length + 1 ∧
      SortedByStart (upsertSegment upsertDemoState (some upsertDemoNew)).2.segments) ∧
    upsertSegment upsertDemoState (some upsertDemoEmpty) = (false, upsertDemoState) := by
  refine ⟨?_, ?_, ?_⟩
  · exact (upsertSegment_spec upsertDemoState (some upsertDemoExisting)).1
      { id := "a", startMs := 1000, endMs := 2000, textLines := ["x"] }
      (by decide) (by decide)
  · exact (upsertSegment_spec upsertDemoState (some upsertDemoNew)).2.1
      { id := "b", startMs := 0, endMs := 1000, textLines := ["y"] }
      (by decide) (by decide)
  · exact (upsertSegment_spec upsertDemoState (some upsertDemoEmpty)).2.2 (by decide)

theorem empty_wf : MapWF { segments := [], segmentMap := [] } := by decide

theorem foldl_upsert_wf (l : List RawSegment) :
    ∀ acc : StreamState, MapWF acc →
      MapWF (l.foldl (fun a s => (upsertSegment a (some s)).2) acc) := by
  induction l with
  | nil => intro acc h; exact h
  | cons r rest ih =>
    intro acc h
    exact ih _ (upsert_preserves_wf _ _ h)

theorem resetAll_wf (l : List RawSegment) : MapWF (resetAllSegments l) :=
  foldl_upsert_wf l _ empty_wf

theorem foldl_upsert_sorted (l : List RawSegment) :
    ∀ acc : StreamState, MapWF acc → SortedByStart acc.segments →
      (∀ s ∈ acc.segments, s.id ∉ normIds l) → (normIds l).Nodup →
      SortedByStart ((l.foldl (fun a s => (upsertSegment a (some s)).2) acc).segments) ∧
      (∀ s ∈ (l.foldl (fun a s => (upsertSegment a (some s)).2) acc).segments,
        s.id ∈ acc.segments.map Segment.id ∨ s.id ∈ normIds l) := by
  induction l with
  | nil =>
    intro acc _ hs _ _
    exact ⟨hs, fun s hs' => Or.inl (List.mem_map_of_mem _ hs')⟩
  | cons r rest ih =>
    intro acc hwf hs hdisj hnd
    cases hn : normalizeOpenAISegment (some r) with
    | none =>
      have hids : normIds (r :: rest) = normIds rest := by
        simp [normIds, hn]
      have hstep : (upsertSegment acc (some r)).2 = acc := by
        simp [upsertSegment, hn]
      rw [hids] at hdisj hnd
      simp only [List.foldl_cons]
      rw [hstep, hids]
      exact ih acc hwf hs hdisj hnd
    | some n =>
      have hids : normIds (r :: rest) = n.id :: normIds rest := by
        simp [normIds, hn]
      rw [hids] at hdisj hnd
      have hnotrest : n.id ∉ normIds rest := (List.nodup_cons.mp hnd).1
      have hndrest : (normIds rest).Nodup := (List.nodup_cons.mp hnd).2
      have hnone : mapGet acc.segmentMap n.id = none := by
        cases hg : mapGet acc.segmentMap n.id with
        | none => rfl
        | some i =>
          exfalso
          have hidn := hwf.1 _ (mapGet_eq_some_mem hg)
          obtain ⟨s0, hs0, hs0id⟩ : ∃ s0, acc.segments.get? i = some s0 ∧ s0.id = n.id := by
            cases hq : acc.segments.get? i with
            | none => rw [hq] at hidn; simp at hidn
            | some s0 =>
              rw [hq] at hidn
              exact ⟨s0, rfl, by simpa using hidn⟩
          refine hdisj s0 (List.get?_mem hs0) ?_
          rw [hs0id]
          exact List.mem_cons_self _ _
      have hstep : (upsertSegment acc (some r)).2 =
          { segments := List.insertionSort segLE (acc.segments ++ [n]),
            segmentMap := rebuildMap (mapSet acc.segmentMap n.id acc.segments.length)
              (List.insertionSort segLE (acc.segments ++ [n])) 0 } := by
        simp [upsertSegment, hn, hnone]
      have hwf1 := upsert_preserves_wf acc (some r) hwf
      have hsort1 : SortedByStart (upsertSegment acc (some r)).2.segments :=
        upsert_insert_sorted acc (some r) hn hnone
      have hmem1 : ∀ s ∈ (upsertSegment acc (some r)).2.segments,
          s ∈ acc.segments ∨ s = n := by
        intro s hsx
        rw [hstep] at hsx
        have := (List.perm_insertionSort segLE (acc.segments ++ [n])).mem_iff.mp hsx
        simpa using this
      have hdisj1 : ∀ s ∈ (upsertSegment acc (some r)).2.segments,
          s.id ∉ normIds rest := by
        intro s hsx
        rcases hmem1 s hsx with h' | h'
        · exact fun hin => hdisj s h' (List.mem_cons_of_mem _ hin)
        · subst h'
          exact hnotrest
      simp only [List.foldl_cons]
      obtain ⟨hA, hB⟩ := ih (upsertSegment acc (some r)).2 hwf1 hsort1 hdisj1 hndrest
      refine ⟨hA, ?_⟩
      intro s hsx
      rcases hB s hsx with h | h
      · obtain ⟨t, ht, htid⟩ := List.mem_map.mp h
        rcases hmem1 t ht with h' | h'
        · left
          rw [← htid]
          exact List.mem_map_of_mem _ h'
        · right
          rw [hids, ← htid, h']
          exact List.mem_cons_self _ _
      · right
        rw [hids]
        exact List.mem_cons_of_mem _ h

theorem resetAll_sorted (l : List RawSegment) (hnd : (normIds l).Nodup) :
    SortedByStart (resetAllSegments l).segments := by
  have h := foldl_upsert_sorted l { segments := [], segmentMap := [] } empty_wf
    (by simp [SortedByStart]) (by simp) hnd
  exact h.1

/-- C3 counterexample: after inserting ids `"a"` (0 s) and `"b"` (5 s),
re-upserting `"a"` moved to 9 s succeeds but replaces in place without
re-sorting, so the sequence is no longer sorted by `startMs`. -/
theorem merger_invariant_counterexample :
    (upsertSegment replaceDemoBase (some replaceDemoRaw)).1 = true ∧
      ¬ SortedByStart (upsertSegment replaceDemoBase (some replaceDemoRaw)).2.segments := by
  exact ⟨by decide, by decide⟩

/-- C3 (amended): after every successful upsert and reset-all the id map
still sends each id to exactly one valid position of the segment holding
it; an upsert that inserts a new id, and a reset-all whose normalized
segment ids are pairwise distinct, additionally leave the sequence
sorted ascending by `startMs`; an in-place replace of an existing id
with a changed `startMs` may leave the sequence unsorted (see the
counterexample). -/
theorem merger_invariants (st : StreamState) (raw : Option RawSegment)
    (l : List RawSegment) (hwf : MapWF st) :
    MapWF (upsertSegment st raw).2 ∧
    (∀ n, normalizeOpenAISegment raw = some n → mapGet st.segmentMap n.id = none →
      SortedByStart (upsertSegment st raw).2.segments) ∧
    MapWF (resetAllSegments l) ∧
    ((normIds l).Nodup → SortedByStart (resetAllSegments l).segments) :=
  ⟨upsert_preserves_wf st raw hwf,
   fun _ hn hnone => upsert_insert_sorted st raw hn hnone,
   resetAll_wf l,
   fun hnd => resetAll_sorted l hnd⟩

/-- C3 amended-claim witness at a concrete well-formed collection. -/
theorem merger_invariants_witness :
    MapWF upsertDemoState ∧
    MapWF (upsertSegment upsertDemoState (some upsertDemoNew)).2 ∧
    SortedByStart (upsertSegment upsertDemoState (some upsertDemoNew)).2.segments ∧
    MapWF (resetAllSegments [upsertDemoNew]) ∧
    SortedByStart (resetAllSegments [upsertDemoNew]).segments := by
  have h := merger_invariants upsertDemoState (some upsertDemoNew) [upsertDemoNew]
    (by decide)
  exact ⟨by decide, h.1,
    h.2.1 { id := "b", startMs := 0, endMs := 1000, textLines := ["y"] }
      (by decide) (by decide),
    h.2.2.1, h.2.2.2 (by decide)⟩

/-! ### Log polling: idempotence and append-only behaviour -/

theorem collectLine_segments_append (st : Bool × LogState) (rawLine : String) :
    ∃ tail, (collectLine st rawLine).2.segments = st.2.segments ++ tail := by
  unfold collectLine
  by_cases hline : jsTrim rawLine = ""
  · exact ⟨[], by simp [hline]⟩
  · cases hm : matchLogSegment (jsTrim rawLine).data with
    | none => exact ⟨[], by simp [hline, hm]⟩
    | some trip =>
      obtain ⟨a, b, c⟩ := trip
      by_cases hc : (a ++ "|" ++ b ++ "|" ++ jsTrim c) ∈ st.2.seen
      · exact ⟨[], by simp [hline, hm, hc]⟩
      · exact ⟨[{ timing := convertLogTimestamp a ++ " --> " ++ convertLogTimestamp b,
                  text := [jsTrim c] }], by simp [hline, hm, hc]⟩

theorem foldl_collect_append (lines : List String) :
    ∀ st : Bool × LogState, ∃ tail,
      (lines.foldl collectLine st).2.segments = st.2.segments ++ tail := by
  induction lines with
  | nil => intro st; exact ⟨[], by simp⟩
  | cons l rest ih =>
    intro st
    obtain ⟨t1, h1⟩ := collectLine_segments_append st l
    obtain ⟨t2, h2⟩ := ih (collectLine st l)
    exact ⟨t1 ++ t2, by rw [List.foldl_cons, h2, h1, List.append_assoc]⟩

theorem collectLine_seen_mono {st : Bool × LogState} {k : String} (rawLine : String)
    (h : k ∈ st.2.seen) : k ∈ (collectLine st rawLine).2.seen := by
  unfold collectLine
  by_cases hline : jsTrim rawLine = ""
  · simpa [hline] using h
  · cases hm : matchLogSegment (jsTrim rawLine).data with
    | none => simpa [hline, hm] using h
    | some trip =>
      obtain ⟨a, b, c⟩ := trip
      by_cases hc : (a ++ "|" ++ b ++ "|" ++ jsTrim c) ∈ st.2.seen
      · simpa [hline, hm, hc] using h
      · simp [hline, hm, hc, List.mem_append]
        exact Or.inl h

theorem foldl_collect_seen_mono (lines : List String) :
    ∀ (st : Bool × LogState) {k : String}, k ∈ st.2.seen →
      k ∈ (lines.foldl collectLine st).2.seen := by
  induction lines with
  | nil => intro st k h; exact h
  | cons l rest ih =>
    intro st k h
    exact ih _ (collectLine_seen_mono l h)

theorem collectLine_key_in (st : Bool × LogState) (rawLine k : String)
    (hk : lineKey rawLine = some k) : k ∈ (collectLine st rawLine).2.seen := by
  unfold lineKey at hk
  unfold collectLine
  by_cases hline : jsTrim rawLine = ""
  · simp [hline] at hk
  · simp only [hline, if_neg, if_false] at hk ⊢
    cases hm : matchLogSegment (jsTrim rawLine).data with
    | none =>
      rw [hm] at hk
      simp at hk
    | some trip =>
      obtain ⟨a, b, c⟩ := trip
      rw [hm] at hk
      simp only [Option.some.injEq] at hk
      subst hk
      by_cases hc : (a ++ "|" ++ b ++ "|" ++ jsTrim c) ∈ st.2.seen
      · simp [hc]
      · simp [hc]

theorem collectLine_noop {st : Bool × LogState} {rawLine : String}
    (h : ∀ k, lineKey rawLine = some k → k ∈ st.2.seen) :
    collectLine st rawLine = st := by
  unfold collectLine
  by_cases hline : jsTrim rawLine = ""
  · simp [hline]
  · cases hm : matchLogSegment (jsTrim rawLine).data with
    | none => simp [hline, hm]
    | some trip =>
      obtain ⟨a, b, c⟩ := trip
      have hk := h (a ++ "|" ++ b ++ "|" ++ jsTrim c) (by simp [lineKey, hline, hm])
      simp [hline, hm, hk]

theorem foldl_collect_noop (lines : List String) :
    ∀ st : Bool × LogState,
      (∀ l ∈ lines, ∀ k, lineKey l = some k → k ∈ st.2.seen) →
      lines.foldl collectLine st = st := by
  induction lines with
  | nil => intro st _; rfl
  | cons l rest ih =>
    intro st h
    rw [List.foldl_cons, collectLine_noop (fun k hk => h l (List.mem_cons_self _ _) k hk)]
    exact ih st (fun l' hl' k hk => h l' (List.mem_cons_of_mem _ hl') k hk)

theorem foldl_collect_keys (lines : List String) :
    ∀ (st : Bool × LogState), ∀ l ∈ lines, ∀ k, lineKey l = some k →
      k ∈ (lines.foldl collectLine st).2.seen := by
  induction lines with
  | nil =>
    intro st l hl
    simp at hl
  | cons l0 rest ih =>
    intro st l hl k hk
    rw [List.foldl_cons]
    rcases List.mem_cons.mp hl with h | h
    · subst h
      exact foldl_collect_seen_mono rest _ (collectLine_key_in st l k hk)
    · exact ih _ l h k hk

/-- C10: rerunning `collectNewSegments` on the same log content with the
carried-over seen-set and segment list returns `false` and leaves the
state exactly unchanged, and every call only appends a (possibly empty)
suffix to the segment list — previously appended segments are never
removed or reordered. -/
theorem collectNewSegments_idempotent_append (logExists : Bool) (content : String) :
    (∀ st : LogState,
      collectNewSegments logExists content (collectNewSegments logExists content st).2 =
        (false, (collectNewSegments logExists content st).2)) ∧
    (∀ st : LogState, ∃ tail,
      (collectNewSegments logExists content st).2.segments = st.segments ++ tail) := by
  constructor
  · intro st
    cases logExists with
    | false => rfl
    | true =>
      by_cases hc : content = ""
      · simp [collectNewSegments, hc]
      · simp only [collectNewSegments, Bool.not_true, Bool.false_eq_true, if_false,
          hc, if_neg]
        exact foldl_collect_noop (splitLinesJs content) _
          (fun l hl k hk => foldl_collect_keys (splitLinesJs content) (false, st) l hl k hk)
  · intro st
    cases logExists with
    | false => exact ⟨[], by simp [collectNewSegments]⟩
    | true =>
      by_cases hc : content = ""
      · exact ⟨[], by simp [collectNewSegments, hc]⟩
      · obtain ⟨tail, ht⟩ := foldl_collect_append (splitLinesJs content) (false, st)
        refine ⟨tail, ?_⟩
        simpa [collectNewSegments, hc] using ht

end Whisperina